import Mathlib

/-!
Verification of the batch text fixer in `fix_encoding.py`.

The script reads each listed file as UTF-8 text in universal-newlines mode,
applies four literal substitutions in a fixed order (BOM removal, then
three HTML entities), writes the result back with every line feed translated
to carriage-return + line-feed, and reports one line per file plus a final
completion line.  Text is modelled as `List Char`; the filesystem as a pair
of functions giving each path its content and whether reading it succeeds.
-/

set_option autoImplicit false

/-- Carriage-return character. -/
def CR : Char := Char.ofNat 13

/-- Line-feed character. -/
def LF : Char := Char.ofNat 10

/-- Byte-order-mark character, the target of the first substitution. -/
def bomChar : Char := Char.ofNat 0xFEFF

/-- Apostrophe, the replacement for the entity sequence of rule two. -/
def apoChar : Char := Char.ofNat 39

/-- Double-quote, the replacement for the entity sequence of rule three. -/
def quoChar : Char := Char.ofNat 34

/-- Ampersand, the replacement for the entity sequence of rule four. -/
def ampChar : Char := '&'

/-- Fuel-driven scanner implementing Python `str.replace`: leftmost,
non-overlapping matches replaced in a single left-to-right pass.  The fuel
is at least the length of the remaining text whenever it is reached from
`replaceAll`, so the zero-fuel arm is never hit there. -/
def repAux (p r : List Char) : Nat → List Char → List Char
  | _, [] => []
  | 0, s => s
  | fuel + 1, c :: cs =>
    if p ≠ [] ∧ p <+: (c :: cs) then
      r ++ repAux p r fuel ((c :: cs).drop p.length)
    else
      c :: repAux p r fuel cs

/-- Python `content.replace(p, r)` on character lists (for nonempty `p`):
replace all leftmost non-overlapping occurrences of `p` by `r`. -/
def replaceAll (p r s : List Char) : List Char :=
  repAux p r s.length s

/-- Pattern of the first rule: the byte-order mark. -/
def bomPat : List Char := [bomChar]

/-- Pattern of the second rule: the apostrophe entity. -/
def aposPat : List Char := [ampChar, 'a', 'p', 'o', 's', ';']

/-- Pattern of the third rule: the double-quote entity. -/
def quotPat : List Char := [ampChar, 'q', 'u', 'o', 't', ';']

/-- Pattern of the fourth rule: the ampersand entity. -/
def ampPat : List Char := [ampChar, 'a', 'm', 'p', ';']

/-- The in-memory transformation of lines 23 to 26 of the script: strip the
BOM, then unescape the apostrophe entity, then the double-quote entity, and
the ampersand entity last. -/
def transform (content : List Char) : List Char :=
  replaceAll ampPat [ampChar]
    (replaceAll quotPat [quoChar]
      (replaceAll aposPat [apoChar]
        (replaceAll bomPat [] content)))

/-- Universal-newlines decoding performed by `open(..., 'r')`: each
carriage-return + line-feed pair and each lone carriage return become a
single line feed. -/
def readTranslate : List Char → List Char
  | [] => []
  | [c] => if c = CR then [LF] else [c]
  | c :: d :: ds =>
    if c = CR then
      if d = LF then LF :: readTranslate ds else LF :: readTranslate (d :: ds)
    else
      c :: readTranslate (d :: ds)

/-- Newline translation performed by `open(..., 'w', newline='\r\n')`:
every line feed written becomes carriage-return + line-feed. -/
def writeTranslate : List Char → List Char
  | [] => []
  | c :: cs =>
    if c = LF then CR :: LF :: writeTranslate cs else c :: writeTranslate cs

/-- Content that reaches the disk for one file: read translation, then the
substitution chain, then write translation. -/
def pipeline (raw : List Char) : List Char :=
  writeTranslate (transform (readTranslate raw))

/-- Checks that carriage returns and line feeds occur only as adjacent
carriage-return + line-feed pairs, i.e. the terminator convention is
uniformly CRLF. -/
def crlfOk : List Char → Bool
  | [] => true
  | [c] => decide (c ≠ CR ∧ c ≠ LF)
  | c :: d :: ds =>
    if c = CR then
      if d = LF then crlfOk ds else false
    else if c = LF then false
    else crlfOk (d :: ds)

/-- One operator-facing report line: a per-file confirmation, a per-file
error diagnostic, or the final completion line. -/
inductive Report where
  | fixed : Nat → Report
  | errorFixing : Nat → Report
  | allProcessed : Report
deriving DecidableEq

/-- The path a report line concerns, if any. -/
def reportAbout : Report → Option Nat
  | Report.fixed p => some p
  | Report.errorFixing p => some p
  | Report.allProcessed => none

/-- Filesystem state: the content stored at each path, and whether the read
step (open, read, UTF-8 decode) succeeds for that path. -/
structure SysState where
  content : Nat → List Char
  readOk : Nat → Bool

/-- One iteration of the script's loop body: read the file; on success
transform and write back, reporting success; on failure leave the state
unchanged and report the error.  The write is reached only after the read
succeeded. -/
def processFile (st : SysState) (p : Nat) : SysState × Report :=
  if st.readOk p then
    ({ st with content := fun q => if q = p then pipeline (st.content p) else st.content q },
     Report.fixed p)
  else
    (st, Report.errorFixing p)

/-- The whole run: fold the loop body over the path list in order, then
emit the final completion line. -/
def processAll (st : SysState) : List Nat → SysState × List Report
  | [] => (st, [Report.allProcessed])
  | p :: ps =>
    let fr := processFile st p
    let rest := processAll fr.1 ps
    (rest.1, fr.2 :: rest.2)

/-- The substitution rules as an ordered list of pattern-replacement pairs,
in the order the script applies them. -/
def fixRules : List (List Char × List Char) :=
  [(bomPat, []), (aposPat, [apoChar]), (quotPat, [quoChar]), (ampPat, [ampChar])]

/-- Apply an ordered list of substitution rules left to right. -/
def applyRules (rs : List (List Char × List Char)) (t : List Char) : List Char :=
  rs.foldl (fun acc pr => replaceAll pr.1 pr.2 acc) t

/-- The scanner result does not depend on the fuel, as long as the fuel is
at least the length of the text. -/
theorem repAux_congr (p r : List Char) :
    ∀ m n s, s.length ≤ m → s.length ≤ n → repAux p r m s = repAux p r n s := by
  intro m
  induction m with
  | zero =>
    intro n s hm _
    have hs : s = [] := List.eq_nil_of_length_eq_zero (Nat.le_zero.mp hm)
    subst hs
    cases n <;> rfl
  | succ m ih =>
    intro n s hm hn
    cases s with
    | nil => cases n <;> rfl
    | cons c cs =>
      cases n with
      | zero => simp at hn
      | succ n =>
        simp only [repAux]
        by_cases hg : p ≠ [] ∧ p <+: c :: cs
        · rw [if_pos hg, if_pos hg]
          have hp : 0 < p.length := List.length_pos.mpr hg.1
          have hd : ((c :: cs).drop p.length).length ≤ m := by
            simp only [List.length_drop, List.length_cons] at *
            omega
          have hd' : ((c :: cs).drop p.length).length ≤ n := by
            simp only [List.length_drop, List.length_cons] at *
            omega
          rw [ih n ((c :: cs).drop p.length) hd hd']
        · rw [if_neg hg, if_neg hg]
          have h1 : cs.length ≤ m := by simp only [List.length_cons] at hm; omega
          have h2 : cs.length ≤ n := by simp only [List.length_cons] at hn; omega
          rw [ih n cs h1 h2]

/-- Unfolding equation: the empty text is unchanged. -/
theorem replaceAll_nil (p r : List Char) : replaceAll p r [] = [] := rfl

/-- Unfolding equation: a match at the head is replaced and scanning resumes
after the matched pattern. -/
theorem replaceAll_cons_pos {p : List Char} (r : List Char) {c : Char} {cs : List Char}
    (h : p ≠ [] ∧ p <+: c :: cs) :
    replaceAll p r (c :: cs) = r ++ replaceAll p r ((c :: cs).drop p.length) := by
  have hp : 0 < p.length := List.length_pos.mpr h.1
  show repAux p r (c :: cs).length (c :: cs) = _
  have h1 : repAux p r (c :: cs).length (c :: cs)
      = r ++ repAux p r cs.length ((c :: cs).drop p.length) := by
    simp only [List.length_cons, repAux, if_pos h]
  rw [h1]
  have h2 : repAux p r cs.length ((c :: cs).drop p.length)
      = repAux p r ((c :: cs).drop p.length).length ((c :: cs).drop p.length) := by
    apply repAux_congr
    · simp only [List.length_drop, List.length_cons]
      omega
    · exact le_rfl
  rw [h2]
  rfl

/-- Unfolding equation: with no match at the head, the head character is kept
and scanning moves one position right. -/
theorem replaceAll_cons_neg {p : List Char} (r : List Char) {c : Char} {cs : List Char}
    (h : ¬(p ≠ [] ∧ p <+: c :: cs)) :
    replaceAll p r (c :: cs) = c :: replaceAll p r cs := by
  show repAux p r (c :: cs).length (c :: cs) = _
  simp only [List.length_cons, repAux, if_neg h]
  rfl

/-- A single character occurs as a contiguous substring exactly when it is a
member of the list. -/
theorem singleton_sub_iff_mem {a : Char} {l : List Char} : [a] <:+: l ↔ a ∈ l := by
  constructor
  · rintro ⟨u, v, huv⟩
    rw [← huv]
    simp
  · intro h
    obtain ⟨u, v, huv⟩ := List.append_of_mem h
    exact ⟨u, v, by rw [huv]; simp⟩

/-- A substring of an appended list either touches a character of the left
part or lies entirely in the right part. -/
theorem sub_of_append {q r t : List Char} (h : q <:+: r ++ t) :
    (∃ c, c ∈ q ∧ c ∈ r) ∨ q <:+: t := by
  obtain ⟨u, v, huv⟩ := h
  cases q with
  | nil => exact Or.inr ⟨[], t, by simp⟩
  | cons q0 q' =>
    by_cases hle : r.length ≤ u.length
    · right
      have h3 : (r ++ t).drop r.length = t := by
        rw [List.drop_append_eq_append_drop]
        simp
      have h2 : (u ++ (q0 :: q') ++ v).drop r.length
          = u.drop r.length ++ (q0 :: q') ++ v := by
        rw [List.append_assoc, List.drop_append_eq_append_drop]
        have hz : r.length - u.length = 0 := by omega
        rw [hz]
        simp [List.append_assoc]
      exact ⟨u.drop r.length, v, by rw [← h2, huv, h3]⟩
    · left
      push_neg at hle
      refine ⟨q0, List.mem_cons_self q0 q', ?_⟩
      have htake : (r ++ t).take r.length = r := by
        rw [List.take_append_eq_append_take]
        simp
      have h2 : r = (u ++ (q0 :: (q' ++ v))).take r.length := by
        rw [← htake, ← huv]
        simp [List.append_assoc]
      rw [List.take_append_eq_append_take] at h2
      have h3 : u.take r.length = u := List.take_of_length_le (le_of_lt hle)
      obtain ⟨k, hk⟩ : ∃ k, r.length - u.length = k + 1 :=
        ⟨r.length - u.length - 1, by omega⟩
      rw [h3, hk, List.take_succ_cons] at h2
      rw [h2]
      exact List.mem_append_right u (List.mem_cons_self _ _)

/-- If no character of a word occurs in the replacement string, then the word
can begin the scanner's output only by beginning the input. -/
theorem replaceAll_pre_transfer {p r : List Char} (hr : r ≠ [])
    {q s : List Char} (hq : ∀ c ∈ q, c ∉ r) (h : q <+: replaceAll p r s) : q <+: s := by
  suffices key : ∀ n (q s : List Char), (∀ c ∈ q, c ∉ r) → s.length ≤ n →
      q <+: replaceAll p r s → q <+: s from key s.length q s hq le_rfl h
  intro n
  induction n with
  | zero =>
    intro q s hq hs h
    have hnil : s = [] := List.eq_nil_of_length_eq_zero (Nat.le_zero.mp hs)
    subst hnil
    rw [replaceAll_nil] at h
    have : q = [] := List.eq_nil_of_length_eq_zero (Nat.le_zero.mp h.length_le)
    subst this
    exact List.nil_prefix
  | succ n ih =>
    intro q s hq hs h
    cases s with
    | nil =>
      rw [replaceAll_nil] at h
      have : q = [] := List.eq_nil_of_length_eq_zero (Nat.le_zero.mp h.length_le)
      subst this
      exact List.nil_prefix
    | cons c cs =>
      by_cases hg : p ≠ [] ∧ p <+: c :: cs
      · rw [replaceAll_cons_pos r hg] at h
        cases q with
        | nil => exact List.nil_prefix
        | cons q0 q' =>
          exfalso
          cases r with
          | nil => exact hr rfl
          | cons r0 r' =>
            have h2 : q0 = r0 := (List.cons_prefix_cons.mp (by simpa using h)).1
            exact hq q0 (List.mem_cons_self _ _) (h2 ▸ List.mem_cons_self r0 r')
      · rw [replaceAll_cons_neg r hg] at h
        cases q with
        | nil => exact List.nil_prefix
        | cons q0 q' =>
          obtain ⟨hq0, hq'⟩ := List.cons_prefix_cons.mp h
          subst hq0
          refine List.cons_prefix_cons.mpr ⟨rfl, ?_⟩
          refine ih q' cs (fun x hx => hq x (List.mem_cons_of_mem _ hx)) ?_ hq'
          simp only [List.length_cons] at hs
          omega

/-- After replacing every occurrence of a nonempty pattern by a nonempty
replacement sharing no character with the pattern, the output is free of the
pattern. -/
theorem replaceAll_self_free {p r : List Char} (hp : p ≠ []) (hr : r ≠ [])
    (hdisj : ∀ c ∈ r, c ∉ p) (s : List Char) : ¬ p <:+: replaceAll p r s := by
  suffices key : ∀ n s, s.length ≤ n → ¬ p <:+: replaceAll p r s from key s.length s le_rfl
  intro n
  induction n with
  | zero =>
    intro s hs h
    have hnil : s = [] := List.eq_nil_of_length_eq_zero (Nat.le_zero.mp hs)
    subst hnil
    rw [replaceAll_nil] at h
    exact hp (List.eq_nil_of_length_eq_zero (Nat.le_zero.mp h.length_le))
  | succ n ih =>
    intro s hs h
    cases s with
    | nil =>
      rw [replaceAll_nil] at h
      exact hp (List.eq_nil_of_length_eq_zero (Nat.le_zero.mp h.length_le))
    | cons c cs =>
      simp only [List.length_cons] at hs
      by_cases hg : p ≠ [] ∧ p <+: c :: cs
      · rw [replaceAll_cons_pos r hg] at h
        rcases sub_of_append h with ⟨c0, hc0p, hc0r⟩ | h2
        · exact hdisj c0 hc0r hc0p
        · have hplen : 0 < p.length := List.length_pos.mpr hp
          refine ih ((c :: cs).drop p.length) ?_ h2
          simp only [List.length_drop, List.length_cons]
          omega
      · rw [replaceAll_cons_neg r hg] at h
        rcases List.infix_cons_iff.mp h with h2 | h2
        · rw [← replaceAll_cons_neg r hg] at h2
          have h3 : p <+: c :: cs :=
            replaceAll_pre_transfer hr (fun x hxp hxr => hdisj x hxr hxp) h2
          exact hg ⟨hp, h3⟩
        · exact ih cs (by omega) h2

/-- A word absent from the input and sharing no character with the
replacement is still absent from the scanner's output. -/
theorem replaceAll_absence {p r q : List Char} (hp : p ≠ []) (hr : r ≠ [])
    (hqr : ∀ c ∈ q, c ∉ r) {s : List Char} (hs : ¬ q <:+: s) :
    ¬ q <:+: replaceAll p r s := by
  suffices key : ∀ n s, s.length ≤ n → ¬ q <:+: s → ¬ q <:+: replaceAll p r s from
    key s.length s le_rfl hs
  intro n
  induction n with
  | zero =>
    intro s hlen hns h
    have hnil : s = [] := List.eq_nil_of_length_eq_zero (Nat.le_zero.mp hlen)
    subst hnil
    rw [replaceAll_nil] at h
    exact hns h
  | succ n ih =>
    intro s hlen hns h
    cases s with
    | nil =>
      rw [replaceAll_nil] at h
      exact hns h
    | cons c cs =>
      simp only [List.length_cons] at hlen
      by_cases hg : p ≠ [] ∧ p <+: c :: cs
      · rw [replaceAll_cons_pos r hg] at h
        rcases sub_of_append h with ⟨c0, hc0q, hc0r⟩ | h2
        · exact hqr c0 hc0q hc0r
        · have hplen : 0 < p.length := List.length_pos.mpr hp
          refine ih ((c :: cs).drop p.length) ?_ ?_ h2
          · simp only [List.length_drop, List.length_cons]
            omega
          · intro hcon
            exact hns (hcon.trans (List.drop_suffix p.length (c :: cs)).isInfix)
      · rw [replaceAll_cons_neg r hg] at h
        rcases List.infix_cons_iff.mp h with h2 | h2
        · rw [← replaceAll_cons_neg r hg] at h2
          exact hns ((replaceAll_pre_transfer hr hqr h2).isInfix)
        · refine ih cs (by omega) ?_ h2
          intro hcon
          exact hns (hcon.trans (List.suffix_cons c cs).isInfix)

/-- Replacement of a pattern that does not occur is the identity. -/
theorem replaceAll_id_of_absent {p : List Char} (r : List Char) {s : List Char}
    (h : ¬ p <:+: s) : replaceAll p r s = s := by
  suffices key : ∀ n s, s.length ≤ n → ¬ p <:+: s → replaceAll p r s = s from
    key s.length s le_rfl h
  intro n
  induction n with
  | zero =>
    intro s hlen _
    have hnil : s = [] := List.eq_nil_of_length_eq_zero (Nat.le_zero.mp hlen)
    subst hnil
    exact replaceAll_nil p r
  | succ n ih =>
    intro s hlen hns
    cases s with
    | nil => exact replaceAll_nil p r
    | cons c cs =>
      simp only [List.length_cons] at hlen
      by_cases hg : p ≠ [] ∧ p <+: c :: cs
      · exact absurd hg.2.isInfix hns
      · rw [replaceAll_cons_neg r hg]
        have : replaceAll p r cs = cs := by
          refine ih cs (by omega) ?_
          intro hcon
          exact hns (hcon.trans (List.suffix_cons c cs).isInfix)
        rw [this]

/-- Every character of the scanner's output comes from the replacement string
or from the input. -/
theorem mem_of_mem_replaceAll {p r : List Char} {x : Char} {s : List Char}
    (h : x ∈ replaceAll p r s) : x ∈ r ∨ x ∈ s := by
  suffices key : ∀ n s, s.length ≤ n → x ∈ replaceAll p r s → x ∈ r ∨ x ∈ s from
    key s.length s le_rfl h
  intro n
  induction n with
  | zero =>
    intro s hlen hx
    have hnil : s = [] := List.eq_nil_of_length_eq_zero (Nat.le_zero.mp hlen)
    subst hnil
    rw [replaceAll_nil] at hx
    simp at hx
  | succ n ih =>
    intro s hlen hx
    cases s with
    | nil =>
      rw [replaceAll_nil] at hx
      simp at hx
    | cons c cs =>
      simp only [List.length_cons] at hlen
      by_cases hg : p ≠ [] ∧ p <+: c :: cs
      · rw [replaceAll_cons_pos r hg] at hx
        rcases List.mem_append.mp hx with hx1 | hx1
        · exact Or.inl hx1
        · have hplen : 0 < p.length := List.length_pos.mpr hg.1
          rcases ih ((c :: cs).drop p.length)
              (by simp only [List.length_drop, List.length_cons]; omega) hx1 with h1 | h1
          · exact Or.inl h1
          · exact Or.inr (List.mem_of_mem_drop h1)
      · rw [replaceAll_cons_neg r hg] at hx
        rcases List.mem_cons.mp hx with hx1 | hx1
        · exact Or.inr (hx1 ▸ List.mem_cons_self c cs)
        · rcases ih cs (by omega) hx1 with h1 | h1
          · exact Or.inl h1
          · exact Or.inr (List.mem_cons_of_mem c h1)

/-- Deleting every occurrence of a single character leaves no occurrence of
that character. -/
theorem not_mem_replaceAll_single (b : Char) (s : List Char) :
    b ∉ replaceAll [b] [] s := by
  suffices key : ∀ n s, s.length ≤ n → b ∉ replaceAll [b] [] s from key s.length s le_rfl
  intro n
  induction n with
  | zero =>
    intro s hlen
    have hnil : s = [] := List.eq_nil_of_length_eq_zero (Nat.le_zero.mp hlen)
    subst hnil
    rw [replaceAll_nil]
    simp
  | succ n ih =>
    intro s hlen
    cases s with
    | nil =>
      rw [replaceAll_nil]
      simp
    | cons c cs =>
      simp only [List.length_cons] at hlen
      by_cases hb : b = c
      · subst hb
        have hg : ([b] : List Char) ≠ [] ∧ [b] <+: b :: cs :=
          ⟨List.cons_ne_nil b [], ⟨cs, rfl⟩⟩
        rw [replaceAll_cons_pos [] hg]
        have hdrop : (b :: cs).drop ([b] : List Char).length = cs := by
          simp
        rw [hdrop]
        simpa using ih cs (by omega)
      · have hg : ¬(([b] : List Char) ≠ [] ∧ [b] <+: c :: cs) := by
          rintro ⟨_, hpre⟩
          exact hb (List.cons_prefix_cons.mp hpre).1
        rw [replaceAll_cons_neg [] hg]
        intro hmem
        rcases List.mem_cons.mp hmem with h1 | h1
        · exact hb h1
        · exact ih cs (by omega) h1

/-- When the replacement is no longer than the pattern, replacement never
lengthens the text. -/
theorem replaceAll_length_le {p r : List Char} (hp : p ≠ [])
    (hlen : r.length ≤ p.length) (s : List Char) :
    (replaceAll p r s).length ≤ s.length := by
  suffices key : ∀ n s, s.length ≤ n → (replaceAll p r s).length ≤ s.length from
    key s.length s le_rfl
  intro n
  induction n with
  | zero =>
    intro s hl
    have hnil : s = [] := List.eq_nil_of_length_eq_zero (Nat.le_zero.mp hl)
    subst hnil
    rw [replaceAll_nil]
  | succ n ih =>
    intro s hl
    cases s with
    | nil => rw [replaceAll_nil]
    | cons c cs =>
      simp only [List.length_cons] at hl
      by_cases hg : p ≠ [] ∧ p <+: c :: cs
      · rw [replaceAll_cons_pos r hg]
        have hple : p.length ≤ cs.length + 1 := by
          have := hg.2.length_le
          simpa using this
        have hplen : 0 < p.length := List.length_pos.mpr hp
        have hrec := ih ((c :: cs).drop p.length)
          (by simp only [List.length_drop, List.length_cons]; omega)
        simp only [List.length_append, List.length_drop, List.length_cons] at hrec ⊢
        omega
      · rw [replaceAll_cons_neg r hg]
        have hrec := ih cs (by omega)
        simp only [List.length_cons]
        omega

/-- The transformed text never contains the BOM character: the first rule
deletes every BOM and no later replacement string contains one. -/
theorem bom_not_mem_transform (t : List Char) : bomChar ∉ transform t := by
  intro h
  simp only [transform] at h
  rcases mem_of_mem_replaceAll h with h1 | h1
  · exact absurd h1 (by decide)
  rcases mem_of_mem_replaceAll h1 with h2 | h2
  · exact absurd h2 (by decide)
  rcases mem_of_mem_replaceAll h2 with h3 | h3
  · exact absurd h3 (by decide)
  · simp only [bomPat] at h3
    exact not_mem_replaceAll_single bomChar t h3

/-- On input free of the BOM character and of the ampersand entity, the
transformed text is free of all three entity sequences. -/
theorem transform_entity_free {t : List Char} (hbom : bomChar ∉ t)
    (hamp : ¬ ampPat <:+: t) :
    ¬ aposPat <:+: transform t ∧ ¬ quotPat <:+: transform t ∧
      ¬ ampPat <:+: transform t := by
  have h0 : ¬ bomPat <:+: t := by
    simp only [bomPat]
    rw [singleton_sub_iff_mem]
    exact hbom
  have e0 : replaceAll bomPat [] t = t := replaceAll_id_of_absent [] h0
  have hamp1 : ¬ ampPat <:+: replaceAll aposPat [apoChar] t :=
    replaceAll_absence (by decide) (by decide) (by decide) hamp
  have hapos1 : ¬ aposPat <:+: replaceAll aposPat [apoChar] t :=
    replaceAll_self_free (by decide) (by decide) (by decide) t
  have hamp2 : ¬ ampPat <:+:
      replaceAll quotPat [quoChar] (replaceAll aposPat [apoChar] t) :=
    replaceAll_absence (by decide) (by decide) (by decide) hamp1
  have hapos2 : ¬ aposPat <:+:
      replaceAll quotPat [quoChar] (replaceAll aposPat [apoChar] t) :=
    replaceAll_absence (by decide) (by decide) (by decide) hapos1
  have hquot2 : ¬ quotPat <:+:
      replaceAll quotPat [quoChar] (replaceAll aposPat [apoChar] t) :=
    replaceAll_self_free (by decide) (by decide) (by decide) _
  have htr : transform t
      = replaceAll quotPat [quoChar] (replaceAll aposPat [apoChar] t) := by
    simp only [transform, e0]
    exact replaceAll_id_of_absent [ampChar] hamp2
  rw [htr]
  exact ⟨hapos2, hquot2, hamp2⟩

/-- Text containing no BOM character and none of the three entity patterns is
left unchanged by the substitution chain. -/
theorem transform_id_of_clean {t : List Char} (hbom : bomChar ∉ t)
    (h1 : ¬ aposPat <:+: t) (h2 : ¬ quotPat <:+: t) (h3 : ¬ ampPat <:+: t) :
    transform t = t := by
  have h0 : ¬ bomPat <:+: t := by
    simp only [bomPat]
    rw [singleton_sub_iff_mem]
    exact hbom
  simp only [transform, replaceAll_id_of_absent _ h0, replaceAll_id_of_absent _ h1,
    replaceAll_id_of_absent _ h2, replaceAll_id_of_absent _ h3]

/-- C1 (amended): for every input the transformed text contains no BOM
character; and when the input contains no BOM character and no occurrence of
the ampersand entity, the transformed text contains no occurrence of any of
the three entity sequences.  (As originally stated the claim fails: the final
ampersand rule can leave behind or synthesize an entity occurrence, see the
counterexample.) -/
theorem claim_transform_output_bom_free_entity_conditional (t : List Char) :
    bomChar ∉ transform t ∧
      (bomChar ∉ t → ¬ ampPat <:+: t →
        ¬ aposPat <:+: transform t ∧ ¬ quotPat <:+: transform t ∧
          ¬ ampPat <:+: transform t) :=
  ⟨bom_not_mem_transform t, fun hb ha => transform_entity_free hb ha⟩

/-- Witness for the amended C1 at a concrete input. -/
theorem claim_transform_output_bom_free_entity_conditional_witness :
    bomChar ∉ transform ("&apos;x".toList) ∧
      ¬ aposPat <:+: transform ("&apos;x".toList) :=
  ⟨(claim_transform_output_bom_free_entity_conditional ("&apos;x".toList)).1,
    ((claim_transform_output_bom_free_entity_conditional ("&apos;x".toList)).2
      (by decide) (by decide)).1⟩

/-- Counterexample to C1 as stated: the ampersand entity occurs in the input
text and still occurs in the transformed text. -/
theorem claim_entity_present_before_transformation_survives :
    ampPat <:+: ("&amp;amp;".toList) ∧
      transform ("&amp;amp;".toList) = "&amp;".toList ∧
      ampPat <:+: transform ("&amp;amp;".toList) := by decide

/-- C4 (amended): the substitution chain is idempotent on every text free of
the BOM character and of the ampersand entity.  (As originally stated the
claim fails, see the counterexample.) -/
theorem claim_transform_idempotent_on_bom_amp_free (t : List Char)
    (hbom : bomChar ∉ t) (hamp : ¬ ampPat <:+: t) :
    transform (transform t) = transform t := by
  obtain ⟨h1, h2, h3⟩ := transform_entity_free hbom hamp
  exact transform_id_of_clean (bom_not_mem_transform t) h1 h2 h3

/-- Witness for the amended C4 at a concrete input. -/
theorem claim_transform_idempotent_on_bom_amp_free_witness :
    transform (transform ("&quot;hi".toList)) = transform ("&quot;hi".toList) :=
  claim_transform_idempotent_on_bom_amp_free ("&quot;hi".toList) (by decide) (by decide)

/-- Counterexample to C4 as stated: a second application of the substitution
chain changes the content again. -/
theorem claim_transform_not_idempotent :
    transform (transform ("&amp;apos;".toList)) ≠ transform ("&amp;apos;".toList) := by
  decide

/-- C5: text containing no BOM character and no occurrence of the three
entity sequences is returned identical by the substitution chain. -/
theorem claim_transform_identity_on_clean (t : List Char) (hbom : bomChar ∉ t)
    (h1 : ¬ aposPat <:+: t) (h2 : ¬ quotPat <:+: t) (h3 : ¬ ampPat <:+: t) :
    transform t = t :=
  transform_id_of_clean hbom h1 h2 h3

/-- Witness for C5 at a concrete input. -/
theorem claim_transform_identity_on_clean_witness :
    transform ("hello world\n".toList) = "hello world\n".toList :=
  claim_transform_identity_on_clean ("hello world\n".toList)
    (by decide) (by decide) (by decide) (by decide)

/-- C6: the substitution chain equals the left-to-right application of the
ordered rule list, whose first rule strips the BOM and whose last rule, in
position three, is the ampersand rule; the ampersand rule is therefore never
applied before the apostrophe rule (position one) or the double-quote rule
(position two). -/
theorem claim_rule_order :
    (∀ t, transform t = applyRules fixRules t) ∧
      fixRules.length = 4 ∧
      fixRules[0]? = some (bomPat, []) ∧
      fixRules[1]? = some (aposPat, [apoChar]) ∧
      fixRules[2]? = some (quotPat, [quoChar]) ∧
      fixRules[3]? = some (ampPat, [ampChar]) :=
  ⟨fun _ => rfl, rfl, rfl, rfl, rfl, rfl⟩

/-- C7: on the specification's scenario input, the substitution chain yields
exactly the unescaped text, and the written file content is that text with
the line terminator rendered as carriage-return + line-feed, free of the
BOM, uniformly CRLF-terminated. -/
theorem claim_scenario_example :
    transform (readTranslate
        ("\uFEFF<p>It&apos;s &quot;ready&quot; &amp; done.</p>\n".toList))
      = "<p>It\x27s \x22ready\x22 & done.</p>\n".toList ∧
    pipeline ("\uFEFF<p>It&apos;s &quot;ready&quot; &amp; done.</p>\n".toList)
      = "<p>It\x27s \x22ready\x22 & done.</p>\r\n".toList ∧
    bomChar ∉ pipeline ("\uFEFF<p>It&apos;s &quot;ready&quot; &amp; done.</p>\n".toList) ∧
    crlfOk (pipeline ("\uFEFF<p>It&apos;s &quot;ready&quot; &amp; done.</p>\n".toList))
      = true := by
  decide

/-- C9: every rule replaces its pattern by a strictly shorter string, so the
substitution chain never lengthens the in-memory text. -/
theorem claim_transform_never_lengthens (t : List Char) :
    (transform t).length ≤ t.length := by
  have l0 : (replaceAll bomPat [] t).length ≤ t.length :=
    replaceAll_length_le (by decide) (by decide) t
  have l1 : (replaceAll aposPat [apoChar] (replaceAll bomPat [] t)).length
      ≤ (replaceAll bomPat [] t).length :=
    replaceAll_length_le (by decide) (by decide) _
  have l2 : (replaceAll quotPat [quoChar]
        (replaceAll aposPat [apoChar] (replaceAll bomPat [] t))).length
      ≤ (replaceAll aposPat [apoChar] (replaceAll bomPat [] t)).length :=
    replaceAll_length_le (by decide) (by decide) _
  have l3 : (transform t).length
      ≤ (replaceAll quotPat [quoChar]
        (replaceAll aposPat [apoChar] (replaceAll bomPat [] t))).length :=
    replaceAll_length_le (by decide) (by decide) _
  exact l3.trans (l2.trans (l1.trans l0))

/-- Universal-newlines decoding leaves no carriage return in the decoded
text. -/
theorem cr_not_mem_readTranslate (s : List Char) : CR ∉ readTranslate s := by
  suffices key : ∀ n s, s.length ≤ n → CR ∉ readTranslate s from key s.length s le_rfl
  intro n
  induction n with
  | zero =>
    intro s hlen
    have hnil : s = [] := List.eq_nil_of_length_eq_zero (Nat.le_zero.mp hlen)
    subst hnil
    simp [readTranslate]
  | succ n ih =>
    intro s hlen
    cases s with
    | nil => simp [readTranslate]
    | cons c cs =>
      cases cs with
      | nil =>
        simp only [readTranslate]
        by_cases hc : c = CR
        · rw [if_pos hc]
          decide
        · rw [if_neg hc]
          intro hmem
          rcases List.mem_cons.mp hmem with h1 | h1
          · exact hc h1.symm
          · simp at h1
      | cons d ds =>
        simp only [List.length_cons] at hlen
        simp only [readTranslate]
        by_cases hc : c = CR
        · rw [if_pos hc]
          by_cases hd : d = LF
          · rw [if_pos hd]
            intro hmem
            rcases List.mem_cons.mp hmem with h1 | h1
            · exact absurd h1 (by decide)
            · exact ih ds (by omega) h1
          · rw [if_neg hd]
            intro hmem
            rcases List.mem_cons.mp hmem with h1 | h1
            · exact absurd h1 (by decide)
            · exact ih (d :: ds) (by simp only [List.length_cons]; omega) h1
        · rw [if_neg hc]
          intro hmem
          rcases List.mem_cons.mp hmem with h1 | h1
          · exact hc h1.symm
          · exact ih (d :: ds) (by simp only [List.length_cons]; omega) h1

/-- A CRLF pair at the front is consumed by the terminator check. -/
theorem crlfOk_crlf_cons (l : List Char) : crlfOk (CR :: LF :: l) = crlfOk l := by
  simp [crlfOk]

/-- A character that is neither carriage return nor line feed is skipped by
the terminator check. -/
theorem crlfOk_cons_other {x : Char} (h1 : x ≠ CR) (h2 : x ≠ LF) (l : List Char) :
    crlfOk (x :: l) = crlfOk l := by
  cases l with
  | nil => simp [crlfOk, h1, h2]
  | cons d ds => simp [crlfOk, h1, h2]

/-- Writing text that contains no carriage return through the newline
translation yields uniformly CRLF-terminated output. -/
theorem crlfOk_writeTranslate {s : List Char} (h : CR ∉ s) :
    crlfOk (writeTranslate s) = true := by
  induction s with
  | nil => rfl
  | cons c cs ih =>
    have hcr : CR ≠ c := fun hx => h (hx ▸ List.mem_cons_self c cs)
    have hcs : CR ∉ cs := fun hx => h (List.mem_cons_of_mem c hx)
    simp only [writeTranslate]
    by_cases hl : c = LF
    · rw [if_pos hl, crlfOk_crlf_cons]
      exact ih hcs
    · rw [if_neg hl, crlfOk_cons_other (fun hx => hcr hx.symm) hl]
      exact ih hcs

/-- The substitution chain introduces no carriage return. -/
theorem cr_not_mem_transform {u : List Char} (h : CR ∉ u) : CR ∉ transform u := by
  intro hx
  simp only [transform] at hx
  rcases mem_of_mem_replaceAll hx with h1 | h1
  · exact absurd h1 (by decide)
  rcases mem_of_mem_replaceAll h1 with h2 | h2
  · exact absurd h2 (by decide)
  rcases mem_of_mem_replaceAll h2 with h3 | h3
  · exact absurd h3 (by decide)
  rcases mem_of_mem_replaceAll h3 with h4 | h4
  · simp at h4
  · exact h h4

/-- C2: whatever mixture of line terminators the raw input uses, the content
written back to disk uses carriage-return + line-feed uniformly: every
carriage return is immediately followed by a line feed and every line feed is
immediately preceded by a carriage return. -/
theorem claim_written_content_uniform_crlf (raw : List Char) :
    crlfOk (pipeline raw) = true :=
  crlfOk_writeTranslate (cr_not_mem_transform (cr_not_mem_readTranslate raw))

/-- Processing one file never changes which paths are readable. -/
theorem processFile_readOk (st : SysState) (p : Nat) :
    ((processFile st p).1).readOk = st.readOk := by
  by_cases h : st.readOk p = true
  · simp only [processFile, if_pos h]
  · simp only [processFile, if_neg h]

/-- Pointwise effect of one loop iteration on the stored contents. -/
theorem processFile_content (st : SysState) (p q : Nat) :
    ((processFile st p).1).content q
      = if q = p ∧ st.readOk p = true then pipeline (st.content q) else st.content q := by
  by_cases h : st.readOk p = true
  · simp only [processFile, if_pos h]
    by_cases hq : q = p
    · subst hq
      simp [h]
    · simp [hq]
  · simp only [processFile, if_neg h]
    simp [h]

/-- The report emitted for one file depends only on whether its read
succeeds. -/
theorem processFile_report (st : SysState) (p : Nat) :
    (processFile st p).2
      = if st.readOk p = true then Report.fixed p else Report.errorFixing p := by
  by_cases h : st.readOk p = true
  · simp only [processFile, if_pos h]
  · simp only [processFile, if_neg h]

/-- The whole run never changes which paths are readable. -/
theorem processAll_readOk (ps : List Nat) : ∀ st : SysState,
    ((processAll st ps).1).readOk = st.readOk := by
  induction ps with
  | nil => intro st; rfl
  | cons p ps ih =>
    intro st
    show ((processAll (processFile st p).1 ps).1).readOk = st.readOk
    rw [ih ((processFile st p).1), processFile_readOk]

/-- The report list of a run is one line per listed path, in list order,
a confirmation or an error according to readability, followed by the single
completion line. -/
theorem processAll_reports (ps : List Nat) : ∀ st : SysState,
    (processAll st ps).2
      = ps.map (fun p => if st.readOk p = true then Report.fixed p
          else Report.errorFixing p) ++ [Report.allProcessed] := by
  induction ps with
  | nil => intro st; rfl
  | cons p ps ih =>
    intro st
    show (processFile st p).2 :: (processAll (processFile st p).1 ps).2 = _
    rw [ih ((processFile st p).1), processFile_report, processFile_readOk,
      List.map_cons, List.cons_append]

/-- A path whose read fails keeps its stored content across the whole run,
whatever the path list is. -/
theorem processAll_content_stable (ps : List Nat) (q : Nat) : ∀ st : SysState,
    st.readOk q = false → ((processAll st ps).1).content q = st.content q := by
  induction ps with
  | nil => intro st _; rfl
  | cons p ps ih =>
    intro st h
    show ((processAll (processFile st p).1 ps).1).content q = st.content q
    have h' : ((processFile st p).1).readOk q = false := by
      rw [processFile_readOk]
      exact h
    rw [ih ((processFile st p).1) h', processFile_content]
    have hneg : ¬(q = p ∧ st.readOk p = true) := by
      rintro ⟨rfl, hc⟩
      rw [h] at hc
      exact Bool.false_ne_true hc
    rw [if_neg hneg]

/-- With no duplicate paths, the run rewrites each readable listed path with
its pipelined content exactly once and touches nothing else. -/
theorem processAll_content_of_nodup (ps : List Nat) (q : Nat) (hnd : ps.Nodup) :
    ∀ st : SysState,
      ((processAll st ps).1).content q
        = if q ∈ ps ∧ st.readOk q = true then pipeline (st.content q)
          else st.content q := by
  induction ps with
  | nil =>
    intro st
    simp [processAll]
  | cons p ps ih =>
    intro st
    obtain ⟨hp, hnd'⟩ := List.nodup_cons.mp hnd
    show ((processAll (processFile st p).1 ps).1).content q = _
    rw [ih hnd' ((processFile st p).1), processFile_readOk, processFile_content]
    by_cases hqp : q = p
    · subst hqp
      have hqps : q ∉ ps := hp
      by_cases hro : st.readOk q = true
      · simp [hqps, hro]
      · simp [hqps, hro]
    · have hneg : ¬(q = p ∧ st.readOk p = true) := fun hx => hqp hx.1
      rw [if_neg hneg]
      simp [List.mem_cons, hqp]

/-- C8: the operator-facing report has exactly one line per listed file, in
list order, and line `i` is the confirmation for path `i` exactly when that
file's read succeeds and the error diagnostic for path `i` exactly when it
fails, followed by exactly one final completion line. -/
theorem claim_report_one_line_per_file (st : SysState) (ps : List Nat) :
    ((processAll st ps).2).length = ps.length + 1 ∧
      (∀ i (hi : i < ps.length),
        ((processAll st ps).2)[i]?
          = some (if st.readOk ps[i] = true then Report.fixed ps[i]
              else Report.errorFixing ps[i])) ∧
      ((processAll st ps).2)[ps.length]? = some Report.allProcessed ∧
      ((processAll st ps).2).count Report.allProcessed = 1 := by
  rw [processAll_reports ps st]
  refine ⟨by simp, ?_, ?_, ?_⟩
  · intro i hi
    rw [List.getElem?_append, if_pos (by simpa using hi), List.getElem?_map,
      List.getElem?_eq_getElem hi]
    rfl
  · have hlen : (List.map (fun p => if st.readOk p = true then Report.fixed p
        else Report.errorFixing p) ps).length = ps.length := by simp
    rw [List.getElem?_append, if_neg (by rw [hlen]; omega), hlen, Nat.sub_self]
    rfl
  · rw [List.count_append]
    have h1 : (List.map (fun p => if st.readOk p = true then Report.fixed p
        else Report.errorFixing p) ps).count Report.allProcessed = 0 := by
      rw [List.count_eq_zero]
      intro hmem
      obtain ⟨p, _, hp⟩ := List.mem_map.mp hmem
      by_cases hro : st.readOk p = true
      · rw [if_pos hro] at hp
        exact Report.noConfusion hp
      · rw [if_neg hro] at hp
        exact Report.noConfusion hp
    rw [h1]
    rfl

/-- Witness for C8 at a concrete run in which the first listed file reads
successfully and the second does not: the first line is the confirmation for
path 4 and the second the error diagnostic for path 5. -/
theorem claim_report_one_line_per_file_witness :
    ((processAll ⟨fun _ => [], fun n => n != 5⟩ [4, 5]).2)[0]?
        = some (Report.fixed 4) ∧
      ((processAll ⟨fun _ => [], fun n => n != 5⟩ [4, 5]).2)[1]?
        = some (Report.errorFixing 5) := by
  have h0 := (claim_report_one_line_per_file
    ⟨fun _ => [], fun n => n != 5⟩ [4, 5]).2.1 0 (by decide)
  have h1 := (claim_report_one_line_per_file
    ⟨fun _ => [], fun n => n != 5⟩ [4, 5]).2.1 1 (by decide)
  exact ⟨h0.trans (by decide), h1.trans (by decide)⟩

/-- C3: in a duplicate-free path list where exactly one listed path fails to
read, every other listed file is rewritten with exactly its pipelined
content, the failing file keeps its content, and the report confirms every
other file, diagnoses the failing one alone, and still ends with the
completion line. -/
theorem claim_single_failure_isolated (st : SysState) (paths : List Nat) (k : Nat)
    (hnd : paths.Nodup) (hk : k ∈ paths) (hkfail : st.readOk k = false)
    (hok : ∀ p, p ∈ paths → p ≠ k → st.readOk p = true) :
    (∀ p, p ∈ paths → p ≠ k →
        ((processAll st paths).1).content p = pipeline (st.content p)) ∧
      ((processAll st paths).1).content k = st.content k ∧
      (processAll st paths).2
        = paths.map (fun p => if p = k then Report.errorFixing p else Report.fixed p)
          ++ [Report.allProcessed] := by
  refine ⟨?_, ?_, ?_⟩
  · intro p hp hpk
    rw [processAll_content_of_nodup paths p hnd st,
      if_pos ⟨hp, hok p hp hpk⟩]
  · exact processAll_content_stable paths k st hkfail
  · rw [processAll_reports paths st]
    have hmap : ∀ p ∈ paths,
        (if st.readOk p = true then Report.fixed p else Report.errorFixing p)
          = if p = k then Report.errorFixing p else Report.fixed p := by
      intro p hp
      by_cases hpk : p = k
      · subst hpk
        rw [if_pos rfl, if_neg (by rw [hkfail]; exact Bool.false_ne_true)]
      · rw [if_neg hpk, if_pos (hok p hp hpk)]
    rw [List.map_congr_left hmap]

/-- Witness for C3 at a concrete run: three paths of which the middle one is
unreadable. -/
theorem claim_single_failure_isolated_witness :
    ((processAll ⟨fun n => if n = 0 then "a&amp;b".toList else "x&quot;y".toList,
        fun n => n != 1⟩ [0, 1, 2]).1).content 0
      = pipeline ("a&amp;b".toList) ∧
    (processAll ⟨fun n => if n = 0 then "a&amp;b".toList else "x&quot;y".toList,
        fun n => n != 1⟩ [0, 1, 2]).2
      = [Report.fixed 0, Report.errorFixing 1, Report.fixed 2,
          Report.allProcessed] := by
  have h := claim_single_failure_isolated
    ⟨fun n => if n = 0 then "a&amp;b".toList else "x&quot;y".toList, fun n => n != 1⟩
    [0, 1, 2] 1 (by decide) (by decide) (by decide) (by decide)
  exact ⟨h.1 0 (by decide) (by decide), h.2.2.trans (by decide)⟩

/-- C10: when the read step fails for a path, the loop body reports the
error and leaves the state untouched, and over a whole run that path's
stored content is unchanged: the write step is only reached after a
successful read. -/
theorem claim_read_failure_leaves_file_unchanged (st : SysState) (p : Nat)
    (paths : List Nat) (h : st.readOk p = false) :
    processFile st p = (st, Report.errorFixing p) ∧
      ((processAll st paths).1).content p = st.content p := by
  constructor
  · have hneg : ¬ st.readOk p = true := by
      rw [h]
      exact Bool.false_ne_true
    simp only [processFile, if_neg hneg]
  · exact processAll_content_stable paths p st h

/-- Witness for C10 at a concrete run. -/
theorem claim_read_failure_leaves_file_unchanged_witness :
    ((processAll ⟨fun _ => "a".toList, fun _ => false⟩ [7]).1).content 7
      = "a".toList :=
  (claim_read_failure_leaves_file_unchanged
    ⟨fun _ => "a".toList, fun _ => false⟩ 7 [7] rfl).2
